import Mathlib

/-!
Verification of the WIPC frame codec and stream demultiplexer.

The model embeds two source components over byte lists (`List Nat`, each
entry one octet):

* the Node.js `Channel` class (`SPEC` source, `Channel.onData`,
  `Channel.send`, `Channel.handleFrame`): the incremental stream
  demultiplexer.  `Channel.onData` appends the chunk to the accumulator
  and loops: it searches for the 4-byte magic `WIPC`, emits bytes before
  the magic (or the whole buffer when no magic occurs) through
  `onPassthrough`, and extracts complete frames, passing them to
  `handleFrame`.  The model records the ordered calls to `onPassthrough`
  and `handleFrame` as a list of `Event`s and returns the final
  accumulator; `handleFrame`'s type dispatch (which throws on reserved
  type bytes) is modelled as its own function returning `Except`.

* the AssemblyScript codec (`assembly/index.ts`, `encode` / `decode`).
  `decode` returns `Frame | null`; the model adds a `trap` outcome for
  the runtime abort `new Uint8Array(<i32>len)` performs when the u32
  length read from the header is >= 2^31 (the i32 cast is negative).
  AssemblyScript 32-bit arithmetic is modelled with explicit `% 2 ^ 32`.

Bytes held in a `Buffer`/`Uint8Array` are octets; `readUInt32LE` reduces
each byte `% 256` so the model is total on `List Nat` while agreeing with
the source on every real byte sequence.
-/

namespace WIPC

/-- The 4-byte magic `"WIPC"` (`Channel.MAGIC`, and the `MAGIC_W..MAGIC_C`
constants of the AssemblyScript codec). -/
def MAGIC : List Nat := [0x57, 0x49, 0x50, 0x43]

/-- `HEADER_SIZE = 9`: 4 magic bytes, 1 type byte, 4 length bytes. -/
def HEADER_SIZE : Nat := 9

/-- `Buffer.readUInt32LE(off)` / `load<u32>(base, 5)`: the unsigned 32-bit
little-endian integer stored in bytes `off .. off+3`.  Each byte of a
`Buffer`/`Uint8Array` is an octet; the `% 256` keeps the model total on
`List Nat` while agreeing with the source on every real byte sequence. -/
def readUInt32LE (l : List Nat) (off : Nat) : Nat :=
  l.getD off 0 % 256 + 256 * (l.getD (off + 1) 0 % 256) +
    65536 * (l.getD (off + 2) 0 % 256) + 16777216 * (l.getD (off + 3) 0 % 256)

/-- The little-endian bytes written by `header.writeUInt32LE(n, 5)` /
`store<u32>(base, n, 5)`. -/
def u32leBytes (n : Nat) : List Nat :=
  [n % 256, n / 256 % 256, n / 65536 % 256, n / 16777216 % 256]

/-- `this.buffer.indexOf(Channel.MAGIC)`: index of the first full occurrence
of the magic, `none` when no complete occurrence exists. -/
def findMagic : List Nat → Option Nat
  | [] => none
  | b :: rest =>
    if MAGIC.isPrefixOf (b :: rest) then some 0
    else (findMagic rest).map (· + 1)

/-- One observable delivery of `Channel.onData`: a call to
`onPassthrough(data)` or a frame handed to `handleFrame(type, payload)`. -/
inductive Event
  | passthrough (data : List Nat)
  | frame (ty : Nat) (payload : List Nat)
deriving DecidableEq, Repr

/-- The `while (true)` loop body of `Channel.onData`, run on the whole
accumulator.  Fuel bounds the iteration count; every iteration either
returns or consumes at least `HEADER_SIZE` bytes, so fuel
`buf.length` always suffices (see `feedGo_congr`). -/
def feedGo : Nat → List Nat → List Event × List Nat
  | 0, buf => ([], buf)
  | fuel + 1, buf =>
    if buf = [] then ([], buf)
    else
      match findMagic buf with
      | none => ([Event.passthrough buf], [])
      | some idx =>
        let buf1 := buf.drop idx
        let pre : List Event :=
          if idx = 0 then [] else [Event.passthrough (buf.take idx)]
        if buf1.length < HEADER_SIZE then (pre, buf1)
        else
          let len := readUInt32LE buf1 5
          if buf1.length < HEADER_SIZE + len then (pre, buf1)
          else
            let out := feedGo fuel (buf1.drop (HEADER_SIZE + len))
            (pre ++ Event.frame (buf1.getD 4 0) ((buf1.drop HEADER_SIZE).take len) :: out.1,
             out.2)

/-- Run the `onData` loop to completion on a buffer. -/
def processList (buf : List Nat) : List Event × List Nat :=
  feedGo buf.length buf

/-- `Channel.onData(chunk)` from a given accumulator state: append the chunk
and run the extraction loop; returns the emitted events (in order) and the
new accumulator. -/
def onData (buffer chunk : List Nat) : List Event × List Nat :=
  feedGo (buffer ++ chunk).length (buffer ++ chunk)

/-- A sequence of `onData` calls, threading the accumulator; returns all
events in order and the final accumulator. -/
def feedAll (buffer : List Nat) : List (List Nat) → List Event × List Nat
  | [] => ([], buffer)
  | c :: cs =>
    let out := onData buffer c
    let rest := feedAll out.2 cs
    (out.1 ++ rest.1, rest.2)

/-- Merge adjacent passthrough runs (the comparison relation the chunking
invariance property uses). -/
def mergeEvents : List Event → List Event
  | [] => []
  | Event.passthrough d :: rest =>
    match mergeEvents rest with
    | Event.passthrough d' :: r => Event.passthrough (d ++ d') :: r
    | r => Event.passthrough d :: r
  | Event.frame t p :: rest => Event.frame t p :: mergeEvents rest

/-- The bytes `Channel.send(type, payload)` writes: 9-byte header (magic,
`writeUInt8(type, 4)`, `writeUInt32LE(body.length, 5)`) then the payload. -/
def send (ty : Nat) (payload : List Nat) : List Nat :=
  MAGIC ++ [ty % 256] ++ u32leBytes (payload.length % 2 ^ 32) ++ payload

/-- The outcome of `Channel.handleFrame`'s switch: which overridable callback
received the frame. -/
inductive Dispatch
  | openMsg
  | closeMsg
  | callMsg (payload : List Nat)
  | dataMsg (payload : List Nat)
deriving DecidableEq, Repr

/-- `Channel.handleFrame(type, payload)`: dispatch on the type byte to the
named callbacks; the `default` branch throws `Unknown frame type`.  (The
`JSON.parse` applied to CALL payloads is a Node builtin outside this
repository; the model hands the raw payload to `onCall`.) -/
def handleFrame (ty : Nat) (payload : List Nat) : Except String Dispatch :=
  if ty = 0 then Except.ok Dispatch.openMsg
  else if ty = 1 then Except.ok Dispatch.closeMsg
  else if ty = 2 then Except.ok (Dispatch.callMsg payload)
  else if ty = 3 then Except.ok (Dispatch.dataMsg payload)
  else Except.error "Unknown frame type"

/-- Result of the AssemblyScript `decode`: a frame, `null`, or the runtime
abort raised by `new Uint8Array(<i32>len)` when the declared length is at
least `2 ^ 31` (negative after the i32 cast). -/
inductive DecodeResult
  | frame (ty : Nat) (payload : List Nat)
  | null
  | trap
deriving DecidableEq, Repr

/-- AssemblyScript `encode(type, payload)`: magic, `<u8>type`,
`store<u32>` of the payload length, then the payload bytes (a `null`
payload encodes like the empty one). -/
def encode (ty : Nat) (payload : List Nat) : List Nat :=
  MAGIC ++ [ty % 256] ++ u32leBytes (payload.length % 2 ^ 32) ++ payload

/-- The magic validation of `decode` (bytes 0..3 against `WIPC`). -/
def magicOk (data : List Nat) : Bool :=
  data.getD 0 0 = 0x57 && data.getD 1 0 = 0x49 &&
    data.getD 2 0 = 0x50 && data.getD 3 0 = 0x43

/-- AssemblyScript `decode(data)`.  Checks in source order:
`<u32>data.length < HEADER_SIZE`, the magic bytes, then
`<u32>data.length < HEADER_SIZE + len` where both sides are u32 (the sum
wraps modulo `2 ^ 32`); on success it allocates `new Uint8Array(<i32>len)`
— a runtime abort when `len ≥ 2 ^ 31` — and copies the payload. -/
def decode (data : List Nat) : DecodeResult :=
  if data.length % 2 ^ 32 < HEADER_SIZE then DecodeResult.null
  else if magicOk data then
    let len := readUInt32LE data 5
    if data.length % 2 ^ 32 < (HEADER_SIZE + len) % 2 ^ 32 then DecodeResult.null
    else if 2 ^ 31 ≤ len then DecodeResult.trap
    else DecodeResult.frame (data.getD 4 0) ((data.drop HEADER_SIZE).take len)
  else DecodeResult.null

/-! ### Basic lemmas about the demultiplexer loop -/

theorem feedGo_nil (f : Nat) : feedGo f [] = ([], []) := by
  cases f <;> simp [feedGo]

theorem findMagic_zero {l : List Nat} (h : MAGIC.isPrefixOf l) : findMagic l = some 0 := by
  cases l with
  | nil => simp [MAGIC, List.isPrefixOf] at h
  | cons b rest => simp [findMagic, h]

theorem findMagic_spec : ∀ {l : List Nat} {i : Nat}, findMagic l = some i →
    MAGIC <+: l.drop i := by
  intro l
  induction l with
  | nil => intro i h; simp [findMagic] at h
  | cons b rest ih =>
    intro i h
    by_cases hp : MAGIC.isPrefixOf (b :: rest)
    · simp [findMagic, hp] at h
      subst h
      simpa using List.isPrefixOf_iff_prefix.mp hp
    · simp [findMagic, hp] at h
      obtain ⟨j, hj, hji⟩ := h
      subst hji
      simpa using ih hj

theorem findMagic_length {l : List Nat} {i : Nat} (h : findMagic l = some i) :
    i + 4 ≤ l.length := by
  have hp := findMagic_spec h
  have h4 : 4 ≤ (l.drop i).length := by
    have := hp.length_le
    simpa [MAGIC] using this
  simp only [List.length_drop] at h4
  omega

/-- The result of the `onData` loop does not depend on the fuel as long as the
fuel is at least the buffer length (each iteration consumes at least
`HEADER_SIZE` bytes or returns). -/
theorem feedGo_congr : ∀ (f g : Nat) (buf : List Nat),
    buf.length ≤ f → buf.length ≤ g → feedGo f buf = feedGo g buf := by
  intro f
  induction f with
  | zero =>
    intro g buf hf _
    have : buf = [] := List.eq_nil_of_length_eq_zero (Nat.le_zero.mp hf)
    subst this
    simp [feedGo_nil]
  | succ k ih =>
    intro g buf hf hg
    rcases buf with _ | ⟨b, bs⟩
    · simp [feedGo_nil]
    rcases g with _ | m
    · exact absurd hg (by simp)
    simp only [feedGo]
    rcases hfm : findMagic (b :: bs) with _ | idx
    · rfl
    simp only
    have hrw : feedGo k (List.drop (HEADER_SIZE + readUInt32LE (List.drop idx (b :: bs)) 5)
          (List.drop idx (b :: bs))) =
        feedGo m (List.drop (HEADER_SIZE + readUInt32LE (List.drop idx (b :: bs)) 5)
          (List.drop idx (b :: bs))) := by
      apply ih
      · simp only [List.length_drop, List.length_cons] at hf ⊢
        simp only [HEADER_SIZE]
        omega
      · simp only [List.length_drop, List.length_cons] at hg ⊢
        simp only [HEADER_SIZE]
        omega
    rw [hrw]

theorem onData_eq_processList (buffer chunk : List Nat) :
    onData buffer chunk = processList (buffer ++ chunk) := rfl

/-- With the magic confirmed at the head of the buffer and a complete frame
buffered, the loop emits that frame and continues on exactly the bytes after
the `HEADER_SIZE + len` consumed ones. -/
theorem processList_extract {buf : List Nat} (hm : MAGIC.isPrefixOf buf)
    (hlen : HEADER_SIZE + readUInt32LE buf 5 ≤ buf.length) :
    processList buf =
      (Event.frame (buf.getD 4 0) ((buf.drop HEADER_SIZE).take (readUInt32LE buf 5)) ::
        (processList (buf.drop (HEADER_SIZE + readUInt32LE buf 5))).1,
       (processList (buf.drop (HEADER_SIZE + readUInt32LE buf 5))).2) := by
  have hne : buf ≠ [] := by
    intro h
    subst h
    simp [MAGIC, List.isPrefixOf] at hm
  have hpos : 0 < buf.length := List.length_pos.mpr hne
  obtain ⟨k, hk⟩ : ∃ k, buf.length = k + 1 := ⟨buf.length - 1, by omega⟩
  have hfind : findMagic buf = some 0 := findMagic_zero hm
  have h9 : ¬ buf.length < HEADER_SIZE := by
    simp only [HEADER_SIZE] at *; omega
  unfold processList
  rw [hk]
  simp only [feedGo, if_neg hne, hfind, List.drop_zero, if_pos rfl,
    if_neg h9, if_neg (by omega : ¬ buf.length < HEADER_SIZE + readUInt32LE buf 5)]
  have hfuel : (buf.drop (HEADER_SIZE + readUInt32LE buf 5)).length ≤ k := by
    simp only [List.length_drop, HEADER_SIZE] at *
    omega
  rw [feedGo_congr k (buf.drop (HEADER_SIZE + readUInt32LE buf 5)).length _ hfuel le_rfl]
  simp

/-! ### The first magic occurrence after magic-free garbage -/

theorem magic_not_isPrefixOf_append {g r : List Nat} (hg : g ≠ [])
    (hni : ¬ MAGIC <:+: g) : ¬ MAGIC.isPrefixOf (g ++ (MAGIC ++ r)) = true := by
  intro h
  have hp : MAGIC <+: g ++ (MAGIC ++ r) := List.isPrefixOf_iff_prefix.mp h
  match g with
  | [] => exact hg rfl
  | [a] =>
    simp [MAGIC, List.cons_prefix_cons] at hp
  | [a, b] =>
    simp [MAGIC, List.cons_prefix_cons] at hp
  | [a, b, c] =>
    simp [MAGIC, List.cons_prefix_cons] at hp
  | a :: b :: c :: d :: g' =>
    have habcd : 87 = a ∧ 73 = b ∧ 80 = c ∧ 67 = d := by
      simpa [MAGIC, List.cons_prefix_cons] using hp
    obtain ⟨ha, hb, hc, hd⟩ := habcd
    exact hni ⟨[], g', by simp [MAGIC, ← ha, ← hb, ← hc, ← hd]⟩

theorem findMagic_append_magic {g : List Nat} (r : List Nat) (hni : ¬ MAGIC <:+: g) :
    findMagic (g ++ (MAGIC ++ r)) = some g.length := by
  induction g with
  | nil =>
    apply findMagic_zero
    exact List.isPrefixOf_iff_prefix.mpr (List.prefix_append _ _)
  | cons a g' ih =>
    have hni' : ¬ MAGIC <:+: g' := fun h => hni (List.infix_cons h)
    have hp := magic_not_isPrefixOf_append (g := a :: g') (r := r) (by simp) hni
    simp only [List.cons_append] at hp ⊢
    simp only [findMagic, if_neg hp, ih hni', List.length_cons]
    rfl

/-! ### Byte-layout lemmas for encoded frames -/

theorem readUInt32LE_append_left {l l' : List Nat} {off : Nat} (h : off + 3 < l.length) :
    readUInt32LE (l ++ l') off = readUInt32LE l off := by
  unfold readUInt32LE
  rw [List.getD_append _ _ _ _ (by omega), List.getD_append _ _ _ _ (by omega),
    List.getD_append _ _ _ _ (by omega), List.getD_append _ _ _ _ (by omega)]

theorem frame_shape (t n : Nat) (p : List Nat) :
    MAGIC ++ [t] ++ u32leBytes n ++ p =
      87 :: 73 :: 80 :: 67 :: t :: (n % 256) :: (n / 256 % 256) ::
        (n / 65536 % 256) :: (n / 16777216 % 256) :: p := rfl

theorem readUInt32LE_frame (t n : Nat) (p : List Nat) :
    readUInt32LE (MAGIC ++ [t] ++ u32leBytes n ++ p) 5 = n % 2 ^ 32 := by
  have h : readUInt32LE (MAGIC ++ [t] ++ u32leBytes n ++ p) 5 =
      n % 256 % 256 + 256 * (n / 256 % 256 % 256) +
        65536 * (n / 65536 % 256 % 256) + 16777216 * (n / 16777216 % 256 % 256) := rfl
  rw [h]
  omega

theorem frame_getD4 (t n : Nat) (p : List Nat) :
    (MAGIC ++ [t] ++ u32leBytes n ++ p).getD 4 0 = t := rfl

theorem frame_magic_isPrefixOf (t n : Nat) (p : List Nat) :
    MAGIC.isPrefixOf (MAGIC ++ [t] ++ u32leBytes n ++ p) = true := rfl

theorem frame_drop9 (t n : Nat) (p : List Nat) :
    (MAGIC ++ [t] ++ u32leBytes n ++ p).drop HEADER_SIZE = p := rfl

theorem frame_length (t n : Nat) (p : List Nat) :
    (MAGIC ++ [t] ++ u32leBytes n ++ p).length = 9 + p.length := by
  rw [frame_shape]
  simp only [List.length_cons]
  omega

theorem frame_magicOk (t n : Nat) (p : List Nat) :
    magicOk (MAGIC ++ [t] ++ u32leBytes n ++ p) = true := rfl

/-! ### decode: branch characterisations -/

theorem decode_success {d : List Nat} (hlen : d.length < 2 ^ 32) (hm : magicOk d = true)
    (hl : readUInt32LE d 5 < 2 ^ 31) (hge : HEADER_SIZE + readUInt32LE d 5 ≤ d.length) :
    decode d =
      DecodeResult.frame (d.getD 4 0) ((d.drop HEADER_SIZE).take (readUInt32LE d 5)) := by
  have h1 : ¬ (d.length % 2 ^ 32 < HEADER_SIZE) := by
    rw [Nat.mod_eq_of_lt hlen]
    simp only [HEADER_SIZE] at hge ⊢
    omega
  have h2 : ¬ (d.length % 2 ^ 32 < (HEADER_SIZE + readUInt32LE d 5) % 2 ^ 32) := by
    rw [Nat.mod_eq_of_lt hlen,
      Nat.mod_eq_of_lt (by simp only [HEADER_SIZE]; omega)]
    omega
  have h3 : ¬ (2 ^ 31 ≤ readUInt32LE d 5) := by omega
  simp only [decode, if_neg h1, if_pos hm, if_neg h2, if_neg h3]

theorem decode_noMagic {d : List Nat} (hm : magicOk d = false) :
    decode d = DecodeResult.null := by
  simp only [decode, hm]
  split <;> simp

theorem decode_short {d : List Nat} (h : d.length % 2 ^ 32 < HEADER_SIZE) :
    decode d = DecodeResult.null := by
  simp only [decode, if_pos h]

theorem decode_incomplete {d : List Nat}
    (h2 : d.length % 2 ^ 32 < (HEADER_SIZE + readUInt32LE d 5) % 2 ^ 32) :
    decode d = DecodeResult.null := by
  by_cases h1 : d.length % 2 ^ 32 < HEADER_SIZE
  · exact decode_short h1
  rcases hm : magicOk d with _ | _
  · exact decode_noMagic hm
  · simp only [decode, if_neg h1, if_pos hm, if_pos h2]

theorem decode_trap {d : List Nat} (h1 : ¬ d.length % 2 ^ 32 < HEADER_SIZE)
    (hm : magicOk d = true)
    (h2 : ¬ d.length % 2 ^ 32 < (HEADER_SIZE + readUInt32LE d 5) % 2 ^ 32)
    (h3 : 2 ^ 31 ≤ readUInt32LE d 5) :
    decode d = DecodeResult.trap := by
  simp only [decode, if_neg h1, if_pos hm, if_neg h2, if_pos h3]

/-- With the magic at the head of the buffer but fewer than
`HEADER_SIZE + length` bytes buffered, the loop emits nothing and leaves the
whole buffer in the accumulator (the `PAYLOAD_WAIT` return). -/
theorem processList_waiting {buf : List Nat} (hm : MAGIC.isPrefixOf buf)
    (h9 : ¬ buf.length < HEADER_SIZE)
    (hw : buf.length < HEADER_SIZE + readUInt32LE buf 5) :
    processList buf = ([], buf) := by
  have hne : buf ≠ [] := by
    intro h
    subst h
    simp [MAGIC, List.isPrefixOf] at hm
  obtain ⟨k, hk⟩ : ∃ k, buf.length = k + 1 := by
    have := List.length_pos.mpr hne
    exact ⟨buf.length - 1, by omega⟩
  unfold processList
  rw [hk]
  simp only [feedGo, if_neg hne, findMagic_zero hm, List.drop_zero, if_pos rfl,
    if_neg h9, if_pos hw, if_true]

/-! ### Claim theorems -/

/-- C9: `encode(OPEN)` (null payload) is exactly the 9 bytes
`57 49 50 43 00 00 00 00 00`; `encode(DATA, "hi")` is exactly the 11 bytes
`57 49 50 43 03 02 00 00 00 68 69`; and `decode` applied to only the first
4 bytes of a frame signals need-more-bytes (`null`, the code's Incomplete
outcome) rather than a frame. -/
theorem c9_concrete_bytes :
    encode 0 [] = [0x57, 0x49, 0x50, 0x43, 0x00, 0x00, 0x00, 0x00, 0x00] ∧
    encode 3 [0x68, 0x69] = [0x57, 0x49, 0x50, 0x43, 0x03, 0x02, 0x00, 0x00, 0x00, 0x68, 0x69] ∧
    decode [0x57, 0x49, 0x50, 0x43] = DecodeResult.null := by
  decide

/-- C1 (failing input): feeding `"WIP"` and then `"C"` followed by the rest of
an OPEN frame header, `Channel.onData` emits both chunks as passthrough runs
and produces no frame at all: the no-magic branch flushes the partial-magic
tail `"WIP"` instead of retaining it, so the split magic is destroyed.  The
claim (and spec §4.2) require exactly one frame and no passthrough here. -/
theorem c1_split_magic_lost :
    feedAll [] [[0x57, 0x49, 0x50], [0x43, 0x00, 0x00, 0x00, 0x00, 0x00]] =
      ([Event.passthrough [0x57, 0x49, 0x50],
        Event.passthrough [0x43, 0x00, 0x00, 0x00, 0x00, 0x00]], []) := by
  decide

/-- C3 (failing input): the 9 bytes of `encode(OPEN)` fed in one call yield
one OPEN frame, but fed as nine 1-byte chunks they yield only passthrough
runs (whose merge is the whole byte sequence), because each 1-byte prefix of
the magic is flushed by the no-magic branch.  The two event sequences differ
even after merging adjacent passthrough runs, refuting chunking invariance. -/
theorem c3_chunking_not_invariant :
    mergeEvents (feedAll [] [[0x57], [0x49], [0x50], [0x43], [0], [0], [0], [0], [0]]).1 =
      [Event.passthrough [0x57, 0x49, 0x50, 0x43, 0, 0, 0, 0, 0]] ∧
    mergeEvents (feedAll [] [[0x57, 0x49, 0x50, 0x43, 0, 0, 0, 0, 0]]).1 =
      [Event.frame 0 []] ∧
    mergeEvents (feedAll [] [[0x57], [0x49], [0x50], [0x43], [0], [0], [0], [0], [0]]).1 ≠
      mergeEvents (feedAll [] [[0x57, 0x49, 0x50, 0x43, 0, 0, 0, 0, 0]]).1 := by
  decide

/-- C5 (counterexample): a 2-byte input (fewer than 9 bytes: Incomplete per
the claim) and a 9-byte input with wrong magic (Invalid per the claim) both
decode to the same `null` value — the two outcomes are not distinguishable;
and on the 9-byte header declaring length `0xFFFFFFFF` (fewer than
`9 + length` bytes available, so the claim demands Incomplete) the u32 sum
`HEADER_SIZE + len` wraps to 8, the availability check passes, and
`new Uint8Array(<i32>len)` aborts: decode traps instead of signalling
Incomplete. -/
theorem c5_null_conflation_and_overflow :
    decode [0x57, 0x49] = DecodeResult.null ∧
    decode [0, 0, 0, 0, 0, 0, 0, 0, 0] = DecodeResult.null ∧
    decode [0x57, 0x49, 0x50, 0x43, 0, 0xFF, 0xFF, 0xFF, 0xFF] = DecodeResult.trap := by
  decide

/-- C6 (counterexample): with empty garbage, feeding a well-formed DATA
frame with payload `"x"` yields only the frame and no passthrough run at
all, not "exactly one passthrough run equal to garbage": `Channel.onData`
never emits an empty passthrough run (`if (idx > 0)`). -/
theorem c6_empty_garbage_no_run :
    onData [] [0x57, 0x49, 0x50, 0x43, 0x03, 0x01, 0, 0, 0, 0x78] =
      ([Event.frame 3 [0x78]], []) := by
  decide

set_option maxRecDepth 100000 in
/-- C8 (counterexample): after buffering the 9-byte header declaring payload
length `0xFFFFFFFF` and then 1000 further bytes, `Channel.onData` emits no
failure of any kind — there is no `OversizedFrame` condition or buffered-size
ceiling in the code — and simply retains all 1009 bytes in the accumulator. -/
theorem c8_no_oversized_guard :
    onData [0x57, 0x49, 0x50, 0x43, 0, 0xFF, 0xFF, 0xFF, 0xFF] (List.replicate 1000 7) =
      ([], [0x57, 0x49, 0x50, 0x43, 0, 0xFF, 0xFF, 0xFF, 0xFF] ++ List.replicate 1000 7) := by
  decide

/-- C4 (amended): for every type byte and every payload of length at most
`2 ^ 31 - 1` (the AssemblyScript `Uint8Array` length is a non-negative i32,
and beyond this the codec's 32-bit length arithmetic misbehaves),
`decode (encode type payload)` yields a frame with the same type byte and
payload bytes. -/
theorem c4_roundtrip (ty : Nat) (p : List Nat) (ht : ty < 256)
    (hp : p.length ≤ 2 ^ 31 - 1) :
    decode (encode ty p) = DecodeResult.frame ty p := by
  have hp' : p.length < 2 ^ 31 := by omega
  have hmod : p.length % 2 ^ 32 = p.length := Nat.mod_eq_of_lt (by omega)
  have hlen : (encode ty p).length = 9 + p.length :=
    frame_length (ty % 256) (p.length % 2 ^ 32) p
  have hread : readUInt32LE (encode ty p) 5 = p.length := by
    have h := readUInt32LE_frame (ty % 256) (p.length % 2 ^ 32) p
    rw [show readUInt32LE (encode ty p) 5 =
      readUInt32LE (MAGIC ++ [ty % 256] ++ u32leBytes (p.length % 2 ^ 32) ++ p) 5 from rfl, h]
    omega
  have hm : magicOk (encode ty p) = true := frame_magicOk (ty % 256) (p.length % 2 ^ 32) p
  have hd := decode_success (d := encode ty p) (by rw [hlen]; omega) hm
    (by rw [hread]; exact hp') (by rw [hread, hlen]; simp [HEADER_SIZE])
  rw [hd, hread]
  congr 1
  · rw [show (encode ty p).getD 4 0 = ty % 256 from
      frame_getD4 (ty % 256) (p.length % 2 ^ 32) p]
    omega
  · rw [show (encode ty p).drop HEADER_SIZE = p from
      frame_drop9 (ty % 256) (p.length % 2 ^ 32) p]
    exact List.take_length p

/-- C4 (counterexample): at the payload `List.replicate (2 ^ 31) 0` — whose
length `2 ^ 31` is within the claimed bound `2 ^ 32 - 1` —
`decode (encode 3 ·)` does not yield a frame: the declared length makes
`<i32>len` negative, so `new Uint8Array(<i32>len)` aborts (`trap`). -/
theorem c4_roundtrip_fails_at_2pow31 :
    decode (encode 3 (List.replicate (2 ^ 31) 0)) = DecodeResult.trap ∧
    (List.replicate (2 ^ 31) (0 : Nat)).length ≤ 2 ^ 32 - 1 ∧
    decode (encode 3 (List.replicate (2 ^ 31) 0)) ≠
      DecodeResult.frame 3 (List.replicate (2 ^ 31) 0) := by
  have hlenr : (List.replicate (2 ^ 31) (0 : Nat)).length = 2 ^ 31 :=
    List.length_replicate _ _
  have hlen : (encode 3 (List.replicate (2 ^ 31) 0)).length = 9 + 2 ^ 31 := by
    rw [show (encode 3 (List.replicate (2 ^ 31) 0)).length =
      9 + (List.replicate (2 ^ 31) (0 : Nat)).length from frame_length _ _ _, hlenr]
  have hread : readUInt32LE (encode 3 (List.replicate (2 ^ 31) 0)) 5 = 2 ^ 31 := by
    rw [show readUInt32LE (encode 3 (List.replicate (2 ^ 31) 0)) 5 =
      (List.replicate (2 ^ 31) (0 : Nat)).length % 2 ^ 32 % 2 ^ 32 from
      readUInt32LE_frame _ _ _, hlenr]
    norm_num
  have htrap : decode (encode 3 (List.replicate (2 ^ 31) 0)) = DecodeResult.trap := by
    apply decode_trap
    · rw [hlen]
      norm_num [HEADER_SIZE]
    · exact frame_magicOk (3 % 256) ((List.replicate (2 ^ 31) (0 : Nat)).length % 2 ^ 32)
        (List.replicate (2 ^ 31) 0)
    · rw [hlen, hread]
      norm_num [HEADER_SIZE]
    · rw [hread]
  refine ⟨htrap, by rw [hlenr]; norm_num, by
    rw [htrap]
    exact fun h => DecodeResult.noConfusion h⟩

/-- C2: for every reserved type byte `0x04..0xFF` and every payload, the
demultiplexer loop treats the encoded frame as structurally valid — it
extracts and delivers the frame, with its type byte intact, and consumes it
from the buffer without any error — while the named-type dispatch
(`Channel.handleFrame`'s switch) is what fails on the reserved type. -/
theorem c2_reserved_type_delivered (ty : Nat) (p : List Nat) (h4 : 4 ≤ ty)
    (h255 : ty ≤ 255) (hp : p.length < 2 ^ 32) :
    onData [] (send ty p) = ([Event.frame ty p], []) ∧
    handleFrame ty p = Except.error "Unknown frame type" := by
  constructor
  · rw [onData_eq_processList, List.nil_append]
    have hmod : p.length % 2 ^ 32 = p.length := Nat.mod_eq_of_lt hp
    have hread : readUInt32LE (send ty p) 5 = p.length := by
      have h := readUInt32LE_frame (ty % 256) (p.length % 2 ^ 32) p
      rw [show readUInt32LE (send ty p) 5 =
        readUInt32LE (MAGIC ++ [ty % 256] ++ u32leBytes (p.length % 2 ^ 32) ++ p) 5 from rfl, h]
      omega
    have hlen : (send ty p).length = 9 + p.length :=
      frame_length (ty % 256) (p.length % 2 ^ 32) p
    have hm : MAGIC.isPrefixOf (send ty p) = true :=
      frame_magic_isPrefixOf (ty % 256) (p.length % 2 ^ 32) p
    rw [processList_extract hm (by rw [hread, hlen]; simp [HEADER_SIZE])]
    have hdrop : (send ty p).drop (HEADER_SIZE + readUInt32LE (send ty p) 5) = [] := by
      apply List.drop_eq_nil_of_le
      rw [hread, hlen]
      simp [HEADER_SIZE]
    rw [hdrop, show processList ([] : List Nat) = ([], []) from rfl]
    have hty : (send ty p).getD 4 0 = ty := by
      rw [show (send ty p).getD 4 0 = ty % 256 from
        frame_getD4 (ty % 256) (p.length % 2 ^ 32) p]
      omega
    have hpl : ((send ty p).drop HEADER_SIZE).take (readUInt32LE (send ty p) 5) = p := by
      rw [show (send ty p).drop HEADER_SIZE = p from
        frame_drop9 (ty % 256) (p.length % 2 ^ 32) p, hread]
      exact List.take_length p
    rw [hty, hpl]
  · have h0 : ¬ ty = 0 := by omega
    have h1 : ¬ ty = 1 := by omega
    have h2 : ¬ ty = 2 := by omega
    have h3 : ¬ ty = 3 := by omega
    simp [handleFrame, h0, h1, h2, h3]

/-- C8 (amended): there is no buffered-size ceiling and no `OversizedFrame`
condition: while the buffer holds the header declaring payload length
`0xFFFFFFFF` and fewer than that many payload bytes, every further
`Channel.onData` call emits nothing and simply appends the chunk to the
accumulator, which therefore grows without bound and the channel never
fails. -/
theorem c8_unbounded_buffering (junk chunk : List Nat)
    (h : junk.length + chunk.length < 4294967295) :
    onData ([0x57, 0x49, 0x50, 0x43, 0, 0xFF, 0xFF, 0xFF, 0xFF] ++ junk) chunk =
      ([], [0x57, 0x49, 0x50, 0x43, 0, 0xFF, 0xFF, 0xFF, 0xFF] ++ (junk ++ chunk)) := by
  rw [onData_eq_processList, List.append_assoc]
  apply processList_waiting
  · exact List.isPrefixOf_iff_prefix.mpr
      ((show MAGIC <+: [0x57, 0x49, 0x50, 0x43, 0, 0xFF, 0xFF, 0xFF, 0xFF] by decide).trans
        (List.prefix_append _ _))
  · simp [HEADER_SIZE]
  · rw [readUInt32LE_append_left (by norm_num),
      show readUInt32LE [0x57, 0x49, 0x50, 0x43, 0, 0xFF, 0xFF, 0xFF, 0xFF] 5 = 4294967295
        by decide]
    simp only [List.length_append, List.length_cons, List.length_nil, HEADER_SIZE]
    omega

/-- C6 (amended): for every non-empty `garbage` containing no occurrence of
the magic, feeding `garbage` immediately followed by a well-formed DATA
frame with payload `"x"` in a single call yields exactly one passthrough run
equal to `garbage` followed by exactly one DATA frame with payload `"x"`,
and empties the accumulator. -/
theorem c6_resync (g : List Nat) (hne : g ≠ []) (hni : ¬ MAGIC <:+: g) :
    onData [] (g ++ [0x57, 0x49, 0x50, 0x43, 0x03, 0x01, 0, 0, 0, 0x78]) =
      ([Event.passthrough g, Event.frame 3 [0x78]], []) := by
  rw [onData_eq_processList, List.nil_append]
  have hfind : findMagic (g ++ [0x57, 0x49, 0x50, 0x43, 0x03, 0x01, 0, 0, 0, 0x78]) =
      some g.length := findMagic_append_magic [0x03, 0x01, 0, 0, 0, 0x78] hni
  have hne1 : g ++ [0x57, 0x49, 0x50, 0x43, 0x03, 0x01, 0, 0, 0, 0x78] ≠ [] := by
    simp
  obtain ⟨k, hk⟩ : ∃ k, (g ++ [0x57, 0x49, 0x50, 0x43, 0x03, 0x01, 0, 0, 0, 0x78]).length =
      k + 1 := by
    have := List.length_pos.mpr hne1
    exact ⟨(g ++ [0x57, 0x49, 0x50, 0x43, 0x03, 0x01, 0, 0, 0, 0x78]).length - 1, by omega⟩
  unfold processList
  rw [hk]
  simp only [feedGo, if_neg hne1, hfind, List.drop_left, List.take_left,
    if_neg (show ¬ g.length = 0 from fun h => hne (List.length_eq_zero.mp h))]
  rw [if_neg (show ¬ (([0x57, 0x49, 0x50, 0x43, 0x03, 0x01, 0, 0, 0, 0x78] :
      List Nat).length < HEADER_SIZE) by decide)]
  rw [show readUInt32LE ([0x57, 0x49, 0x50, 0x43, 0x03, 0x01, 0, 0, 0, 0x78] : List Nat) 5 = 1
    from rfl]
  rw [if_neg (show ¬ (([0x57, 0x49, 0x50, 0x43, 0x03, 0x01, 0, 0, 0, 0x78] :
      List Nat).length < HEADER_SIZE + 1) by decide)]
  rw [show (([0x57, 0x49, 0x50, 0x43, 0x03, 0x01, 0, 0, 0, 0x78] :
      List Nat).drop (HEADER_SIZE + 1)) = [] from rfl]
  rw [feedGo_nil]
  rw [show (([0x57, 0x49, 0x50, 0x43, 0x03, 0x01, 0, 0, 0, 0x78] :
      List Nat).getD 4 0) = 3 from rfl]
  rw [show (([0x57, 0x49, 0x50, 0x43, 0x03, 0x01, 0, 0, 0, 0x78] :
      List Nat).drop HEADER_SIZE).take 1 = [0x78] from rfl]
  rfl

/-! ### Locality of the header reads (decode looks only at bytes `0..9+len`) -/

theorem getD_take_append {d extra : List Nat} {m i : Nat} (him : i < m)
    (hml : m ≤ d.length) : (d.take m ++ extra).getD i 0 = d.getD i 0 := by
  rw [List.getD_append _ _ _ _ (by rw [List.length_take]; omega)]
  simp [List.getD, List.getElem?_take_of_lt him]

theorem magicOk_take_append {d extra : List Nat} {m : Nat} (h4 : 4 ≤ m)
    (hm : m ≤ d.length) : magicOk (d.take m ++ extra) = magicOk d := by
  unfold magicOk
  rw [getD_take_append (by omega) hm, getD_take_append (by omega) hm,
    getD_take_append (by omega) hm, getD_take_append (by omega) hm]

theorem readUInt32LE_take_append {d extra : List Nat} {m off : Nat} (h : off + 3 < m)
    (hm : m ≤ d.length) : readUInt32LE (d.take m ++ extra) off = readUInt32LE d off := by
  unfold readUInt32LE
  rw [getD_take_append (by omega) hm, getD_take_append (by omega) hm,
    getD_take_append (by omega) hm, getD_take_append (by omega) hm]

/-- C5 (amended): `decode` checks in order and collapses the claim's
`Incomplete` and `Invalid` outcomes into the single value `null`: it returns
`null` when fewer than 9 bytes are available, `null` when the magic bytes
differ from `WIPC`, and `null` when fewer than `(9 + length) % 2^32` bytes
are available — the u32 sum wraps, and on a declared length of at least
`2 ^ 31` that survives the wrapped check the payload allocation traps
instead — otherwise it returns a frame whose payload is exactly `length`
bytes; and decode never reads past `9 + length` bytes: appending anything
after them does not change the result. -/
theorem c5_decode_policy :
    (∀ d : List Nat, d.length < HEADER_SIZE → decode d = DecodeResult.null) ∧
    (∀ d : List Nat, magicOk d = false → decode d = DecodeResult.null) ∧
    (∀ d : List Nat, d.length < 2 ^ 32 →
      d.length < (HEADER_SIZE + readUInt32LE d 5) % 2 ^ 32 →
      decode d = DecodeResult.null) ∧
    (∀ d : List Nat, d.length < 2 ^ 32 → HEADER_SIZE ≤ d.length → magicOk d = true →
      ¬ d.length < (HEADER_SIZE + readUInt32LE d 5) % 2 ^ 32 →
      2 ^ 31 ≤ readUInt32LE d 5 → decode d = DecodeResult.trap) ∧
    (∀ d : List Nat, d.length < 2 ^ 32 → magicOk d = true →
      readUInt32LE d 5 < 2 ^ 31 → HEADER_SIZE + readUInt32LE d 5 ≤ d.length →
      decode d = DecodeResult.frame (d.getD 4 0)
        ((d.drop HEADER_SIZE).take (readUInt32LE d 5)) ∧
      ((d.drop HEADER_SIZE).take (readUInt32LE d 5)).length = readUInt32LE d 5) ∧
    (∀ d extra : List Nat, d.length < 2 ^ 32 → magicOk d = true →
      readUInt32LE d 5 < 2 ^ 31 → HEADER_SIZE + readUInt32LE d 5 ≤ d.length →
      (d.take (HEADER_SIZE + readUInt32LE d 5) ++ extra).length < 2 ^ 32 →
      decode (d.take (HEADER_SIZE + readUInt32LE d 5) ++ extra) = decode d) := by
  refine ⟨?_, ?_, ?_, ?_, ?_, ?_⟩
  · intro d hd
    apply decode_short
    have h32 : d.length < 2 ^ 32 := by
      simp only [HEADER_SIZE] at hd
      omega
    rw [Nat.mod_eq_of_lt h32]
    exact hd
  · intro d hm
    exact decode_noMagic hm
  · intro d hlen h
    apply decode_incomplete
    rw [Nat.mod_eq_of_lt hlen]
    exact h
  · intro d hlen h9 hm hchk hbig
    apply decode_trap _ hm _ hbig
    · rw [Nat.mod_eq_of_lt hlen]
      simp only [HEADER_SIZE] at h9 ⊢
      omega
    · rw [Nat.mod_eq_of_lt hlen]
      exact hchk
  · intro d hlen hm hl hge
    refine ⟨decode_success hlen hm hl hge, ?_⟩
    rw [List.length_take, List.length_drop]
    simp only [HEADER_SIZE] at hge ⊢
    omega
  · intro d extra hlen hm hl hge hlen2
    have htl : (d.take (HEADER_SIZE + readUInt32LE d 5)).length =
        HEADER_SIZE + readUInt32LE d 5 := by
      rw [List.length_take]
      omega
    have hm' : magicOk (d.take (HEADER_SIZE + readUInt32LE d 5) ++ extra) = true := by
      rw [magicOk_take_append (by simp only [HEADER_SIZE]; omega) hge]
      exact hm
    have hr' : readUInt32LE (d.take (HEADER_SIZE + readUInt32LE d 5) ++ extra) 5 =
        readUInt32LE d 5 :=
      readUInt32LE_take_append (by simp only [HEADER_SIZE]; omega) hge
    have hs1 := decode_success (d := d.take (HEADER_SIZE + readUInt32LE d 5) ++ extra)
      hlen2 hm' (by rw [hr']; exact hl)
      (by rw [hr', List.length_append, htl]; omega)
    have hs2 := decode_success (d := d) hlen hm hl hge
    rw [hs1, hs2, hr']
    congr 1
    · exact getD_take_append (by simp only [HEADER_SIZE]; omega) hge
    · rw [List.drop_append_of_le_length (by rw [htl]; simp only [HEADER_SIZE]; omega),
        List.drop_take,
        show HEADER_SIZE + readUInt32LE d 5 - HEADER_SIZE = readUInt32LE d 5 from by omega,
        List.take_append_of_le_length
          (by rw [List.length_take, List.length_drop]
              simp only [HEADER_SIZE] at hge ⊢
              omega),
        List.take_take]
      simp

/-- C5 (witness): the amended decode policy at concrete inputs — a 1-byte
input and a bad-magic 9-byte input both give `null`, and appending two
trailing bytes after a complete 11-byte frame does not change the decode
result. -/
theorem c5_decode_policy_witness :
    decode [0x57] = DecodeResult.null ∧
    decode [0, 1, 2, 3, 4, 5, 6, 7, 8] = DecodeResult.null ∧
    decode ([0x57, 0x49, 0x50, 0x43, 9, 2, 0, 0, 0, 10, 11] ++ [12, 13]) =
      decode [0x57, 0x49, 0x50, 0x43, 9, 2, 0, 0, 0, 10, 11] := by
  refine ⟨c5_decode_policy.1 [0x57] (by decide),
    c5_decode_policy.2.1 [0, 1, 2, 3, 4, 5, 6, 7, 8] (by decide), ?_⟩
  have h := c5_decode_policy.2.2.2.2.2 [0x57, 0x49, 0x50, 0x43, 9, 2, 0, 0, 0, 10, 11]
    [12, 13] (by decide) (by decide) (by decide) (by decide) (by decide)
  rw [show ([0x57, 0x49, 0x50, 0x43, 9, 2, 0, 0, 0, 10, 11] : List Nat).take
    (HEADER_SIZE + readUInt32LE [0x57, 0x49, 0x50, 0x43, 9, 2, 0, 0, 0, 10, 11] 5) =
    [0x57, 0x49, 0x50, 0x43, 9, 2, 0, 0, 0, 10, 11] from by decide] at h
  exact h

/-- C7: whenever the buffer starts with the confirmed magic and holds a
complete frame of declared length `N`, the loop emits that frame — whose
payload is exactly the `N` bytes after the header — consumes exactly
`9 + N` bytes from the front of the accumulator, and continues only on the
remaining bytes: the consumed payload is never re-scanned for magic,
whatever bytes it contains. -/
theorem c7_consume_exact (buf : List Nat) (hm : MAGIC <+: buf)
    (hlen : HEADER_SIZE + readUInt32LE buf 5 ≤ buf.length) :
    processList buf =
      (Event.frame (buf.getD 4 0) ((buf.drop HEADER_SIZE).take (readUInt32LE buf 5)) ::
        (processList (buf.drop (HEADER_SIZE + readUInt32LE buf 5))).1,
       (processList (buf.drop (HEADER_SIZE + readUInt32LE buf 5))).2) ∧
    ((buf.drop HEADER_SIZE).take (readUInt32LE buf 5)).length = readUInt32LE buf 5 := by
  refine ⟨processList_extract (List.isPrefixOf_iff_prefix.mpr hm) hlen, ?_⟩
  rw [List.length_take, List.length_drop]
  simp only [HEADER_SIZE] at hlen ⊢
  omega

/-- C7 (witness): a concrete 11-byte buffer holding one complete frame of
type 5 with 1-byte payload `[99]` followed by the stray byte `42`: exactly
10 bytes are consumed, the frame is emitted, and processing continues on
`[42]` alone. -/
theorem c7_consume_exact_witness :
    processList [0x57, 0x49, 0x50, 0x43, 5, 1, 0, 0, 0, 99, 42] =
      (Event.frame 5 [99] :: (processList [42]).1, (processList [42]).2) ∧
    (1 : Nat) = 1 := by
  have h := c7_consume_exact [0x57, 0x49, 0x50, 0x43, 5, 1, 0, 0, 0, 99, 42]
    (by decide) (by decide)
  refine ⟨?_, rfl⟩
  rw [h.1]
  decide

/-- The loop invariant behind C10: for sufficient fuel, the final
accumulator is empty or starts with the complete magic, and every emitted
passthrough run is non-empty. -/
theorem feedGo_inv : ∀ (f : Nat) (buf : List Nat), buf.length ≤ f →
    ((feedGo f buf).2 = [] ∨ MAGIC <+: (feedGo f buf).2) ∧
    (∀ d : List Nat, Event.passthrough d ∈ (feedGo f buf).1 → d ≠ []) := by
  intro f
  induction f with
  | zero =>
    intro buf hf
    have hb : buf = [] := List.eq_nil_of_length_eq_zero (Nat.le_zero.mp hf)
    subst hb
    rw [feedGo_nil]
    exact ⟨Or.inl rfl, by intro d hd; simp at hd⟩
  | succ k ih =>
    intro buf hf
    rcases buf with _ | ⟨b, bs⟩
    · rw [feedGo_nil]
      exact ⟨Or.inl rfl, by intro d hd; simp at hd⟩
    have hbne : (b :: bs : List Nat) ≠ [] := by simp
    rcases hfm : findMagic (b :: bs) with _ | idx
    · simp only [feedGo, if_neg hbne, hfm]
      refine ⟨Or.inl (by simp), ?_⟩
      intro d hd
      simp only [List.mem_singleton, Event.passthrough.injEq] at hd
      subst hd
      exact hbne
    · have hpref : MAGIC <+: (b :: bs).drop idx := findMagic_spec hfm
      have hpre : ∀ d : List Nat, Event.passthrough d ∈
          (if idx = 0 then ([] : List Event)
           else [Event.passthrough ((b :: bs).take idx)]) → d ≠ [] := by
        intro d hd
        by_cases hidx : idx = 0
        · rw [if_pos hidx] at hd
          simp at hd
        · rw [if_neg hidx] at hd
          simp only [List.mem_singleton, Event.passthrough.injEq] at hd
          subst hd
          obtain ⟨m, rfl⟩ : ∃ m, idx = m + 1 := ⟨idx - 1, by omega⟩
          simp [List.take_succ_cons]
      simp only [feedGo, if_neg hbne, hfm]
      by_cases h9 : ((b :: bs).drop idx).length < HEADER_SIZE
      · rw [if_pos h9]
        exact ⟨Or.inr hpref, hpre⟩
      · rw [if_neg h9]
        by_cases hfs : ((b :: bs).drop idx).length <
            HEADER_SIZE + readUInt32LE ((b :: bs).drop idx) 5
        · rw [if_pos hfs]
          exact ⟨Or.inr hpref, hpre⟩
        · rw [if_neg hfs]
          have hrec := ih (((b :: bs).drop idx).drop
              (HEADER_SIZE + readUInt32LE ((b :: bs).drop idx) 5)) (by
            simp only [List.length_drop, List.length_cons] at hf h9 ⊢
            simp only [HEADER_SIZE] at h9 ⊢
            omega)
          refine ⟨hrec.1, ?_⟩
          intro d hd
          simp only [List.mem_append, List.mem_cons] at hd
          rcases hd with hd | hd | hd
          · exact hpre d hd
          · simp at hd
          · exact hrec.2 d hd

/-- C10: after every `Channel.onData` call, from any accumulator state, the
accumulator is either empty or begins with the complete 4-byte magic (an
incomplete frame awaiting more bytes): the implementation never retains
unclassified non-frame bytes — in particular no 1-3 byte partial magic tail
— across calls, and every emitted passthrough run is non-empty. -/
theorem c10_buffer_invariant (buffer chunk : List Nat) :
    ((onData buffer chunk).2 = [] ∨ MAGIC <+: (onData buffer chunk).2) ∧
    ∀ d : List Nat, Event.passthrough d ∈ (onData buffer chunk).1 → d ≠ [] :=
  feedGo_inv ((buffer ++ chunk)).length (buffer ++ chunk) le_rfl

/-- C2 (witness): the reserved type byte `0x05` with payload `[1, 2, 3]`:
the demultiplexer delivers the frame intact and `handleFrame` throws. -/
theorem c2_reserved_type_delivered_witness :
    onData [] (send 5 [1, 2, 3]) = ([Event.frame 5 [1, 2, 3]], []) ∧
    handleFrame 5 [1, 2, 3] = Except.error "Unknown frame type" :=
  c2_reserved_type_delivered 5 [1, 2, 3] (by decide) (by decide) (by decide)

/-- C4 (witness): the round trip at type `3` and payload `"hi"`. -/
theorem c4_roundtrip_witness :
    decode (encode 3 [0x68, 0x69]) = DecodeResult.frame 3 [0x68, 0x69] :=
  c4_roundtrip 3 [0x68, 0x69] (by decide) (by decide)

/-- C6 (witness): garbage `[104]` (no magic inside) followed by the DATA
frame with payload `"x"` yields the passthrough run `[104]` and the frame. -/
theorem c6_resync_witness :
    onData [] ([104] ++ [0x57, 0x49, 0x50, 0x43, 0x03, 0x01, 0, 0, 0, 0x78]) =
      ([Event.passthrough [104], Event.frame 3 [0x78]], []) :=
  c6_resync [104] (by decide) (by decide)

/-- C8 (witness): one further 1-byte chunk on top of the oversized header is
retained with no event emitted. -/
theorem c8_unbounded_buffering_witness :
    onData ([0x57, 0x49, 0x50, 0x43, 0, 0xFF, 0xFF, 0xFF, 0xFF] ++ []) [0] =
      ([], [0x57, 0x49, 0x50, 0x43, 0, 0xFF, 0xFF, 0xFF, 0xFF] ++ ([] ++ [0])) :=
  c8_unbounded_buffering [] [0] (by decide)

end WIPC
